import Mathlib

/-
Verification of the autotyper playback pipeline.

The Go sources are embedded shallowly:
  * strings are lists of characters (`Str`);
  * every observable action of the program (sleeping, writing to the
    command output, printing to standard output, launching a process,
    clearing the screen) becomes an `Event`, and each function is
    translated to a pure function returning the trace of events it
    performs, in order;
  * process execution and screen clearing are external effects, so their
    results (an error or success) are supplied by an oracle `Env`;
  * `viper` configuration reads are frozen into a `Config` record, since
    no code path writes the configuration during the loop.
-/

/-- Strings of the Go program, as lists of characters (Go ranges over
runes, which the character list mirrors). -/
abbrev Str := List Char

/-- Observable actions performed by the program, in program order. -/
inductive Event where
  | sleep (ms : Int)
  | writeOut (s : Str)
  | printStd (s : Str)
  | exec (prog : Str) (args : List Str)
  | clearScreen
  deriving DecidableEq, Repr

/-- ShellOption from cli.go: the three prompt styles. -/
inductive ShellOption where
  | PS
  | Cmd
  | Bash
  deriving DecidableEq, Repr

/-- Prompt from cli.go: username, hostname, path and shell style. -/
structure Prompt where
  Username : Str
  Hostname : Str
  Path : Str
  Shell : ShellOption
  deriving DecidableEq, Repr

/-- Oracle for the external effects: the result of running a program
with arguments (an error message, or success), and the result of the
screen-clear child process. -/
structure Env where
  runner : Str → List Str → Option Str
  clsErr : Option Str

/-- The configuration values read through viper inside the loop. -/
structure Config where
  preDelay : Int
  charDelay : Int
  postDelay : Int
  noCls : Bool

def colorHighlight : Str := ("\x1b[38;5;229m").data

def colorReset : Str := ("\x1b[0m").data

def colorGreen : Str := ("\x1b[38;5;82m").data

def colorBlue : Str := ("\x1b[38;5;32m").data

def colorWhite : Str := ("\x1b[0m").data

/-- Go strings.Split with a one-character separator: splits at every
occurrence, keeps empty fields, and always returns at least one field. -/
def splitChar (sep : Char) : Str → List Str
  | [] => [[]]
  | c :: cs =>
    match splitChar sep cs with
    | [] => [[]]
    | h :: t => if c = sep then [] :: h :: t else (c :: h) :: t

/-- Go strings.Join with a one-character separator. -/
def intercalateChar (sep : Char) : List Str → Str
  | [] => []
  | [s] => s
  | s :: s2 :: rest => s ++ sep :: intercalateChar sep (s2 :: rest)

/-- Go strings.ReplaceAll(input, CRLF, LF): left-to-right,
non-overlapping replacement of a carriage return followed by a newline
with a single newline. -/
def replaceCRLF : Str → Str
  | '\r' :: '\n' :: rest => '\n' :: replaceCRLF rest
  | c :: rest => c :: replaceCRLF rest
  | [] => []

/-- Go strings.TrimRight(s, newline cutset): removes every trailing
newline character. -/
def trimRightNewlines (s : Str) : Str :=
  ((s.reverse).dropWhile (fun c => c == '\n')).reverse

/-- PrintPrompt from cli.go: one fprintf to the output, selected by the
shell style. -/
def PrintPrompt (p : Prompt) : List Event :=
  match p.Shell with
  | ShellOption.PS =>
    [Event.writeOut (("PS ").data ++ p.Path ++ ("> ").data)]
  | ShellOption.Cmd =>
    [Event.writeOut (p.Path ++ ("> ").data)]
  | ShellOption.Bash =>
    [Event.writeOut (colorGreen ++ p.Username ++ ("@").data ++ p.Hostname
      ++ colorWhite ++ (":").data ++ colorBlue ++ p.Path ++ colorWhite
      ++ ("$ ").data)]

/-- ExecuteCommand from cli.go: split the command on single spaces, run
the first field as the program with the remaining fields as arguments,
and return the run result. -/
def ExecuteCommand (command : Str) (env : Env) : List Event × Option Str :=
  let cmdList := splitChar ' ' command
  ([Event.exec (cmdList.headD []) cmdList.tail],
   env.runner (cmdList.headD []) cmdList.tail)

/-- One loop body of TypeAsHuman's character loop: reset the color at a
space, write the character, sleep the per-character delay. -/
def typeCharEvents (delayMs : Int) (c : Char) : List Event :=
  (if c = ' ' then [Event.printStd colorReset] else []) ++
  [Event.writeOut [c], Event.sleep delayMs]

/-- TypeAsHuman from cli.go: with delay 0, a single write of the whole
string; otherwise the highlight color, each character with its delay
(resetting the color at spaces), and a final color reset. Returns nil
in both branches. -/
def TypeAsHuman (str : Str) (delayMs : Int) : List Event × Option Str :=
  if delayMs = 0 then
    ([Event.writeOut str], none)
  else
    ([Event.printStd colorHighlight] ++ str.flatMap (typeCharEvents delayMs)
      ++ [Event.printStd colorReset], none)

/-- The loop's error message format fmt.Printf Error colon value newline. -/
def errorMsg (err : Str) : Str := ("Error: ").data ++ err ++ ['\n']

/-- The guard in the playback loop around the TypeAsHuman call: print an
error message when TypeAsHuman returns one. -/
def typeErrEvents (command : Str) (delayMs : Int) : List Event :=
  match (TypeAsHuman command delayMs).2 with
  | some err => [Event.printStd (errorMsg err)]
  | none => []

/-- ClearScreen from cli.go: run the platform clear command, whose
result the oracle supplies. -/
def ClearScreen (env : Env) : List Event × Option Str :=
  ([Event.clearScreen], env.clsErr)

/-- A ClearScreen call together with the caller's fmt.Println of the
error when one is returned. -/
def clearScreenAttempt (env : Env) : List Event :=
  (ClearScreen env).1 ++
  (match (ClearScreen env).2 with
   | some err => [Event.printStd (err ++ ['\n'])]
   | none => [])

/-- The guard in the playback loop around the ExecuteCommand call:
print the error message when execution returns one. -/
def execErrEvents (command : Str) (env : Env) : List Event :=
  match (ExecuteCommand command env).2 with
  | some err => [Event.printStd (errorMsg err)]
  | none => []

/-- The sleep before typing a command, taken when the pre-delay is
positive. -/
def preDelayEvents (cfg : Config) : List Event :=
  if cfg.preDelay > 0 then [Event.sleep cfg.preDelay] else []

/-- The sleep after a command, taken when the post-delay is positive. -/
def postDelayEvents (cfg : Config) : List Event :=
  if cfg.postDelay > 0 then [Event.sleep cfg.postDelay] else []

/-- The conditional clear-and-reprint at the end of a loop iteration:
taken when clearing is enabled and the command differs from the last
line of the command list. -/
def clearStep (cfg : Config) (p : Prompt) (env : Env)
    (lastLine command : Str) : List Event :=
  if cfg.noCls = false ∧ command ≠ lastLine then
    clearScreenAttempt env ++ PrintPrompt p
  else []

/-- One iteration of the playback loop in rootCmd.RunE: optional
pre-delay sleep, typing (with its never-taken error guard), the
println after typing, command execution (printing an execution error),
the prompt, optional post-delay sleep, and the conditional
clear-and-reprint. -/
def runIteration (cfg : Config) (p : Prompt) (env : Env)
    (lastLine : Str) (command : Str) : List Event :=
  preDelayEvents cfg ++
  (TypeAsHuman command cfg.charDelay).1 ++
  typeErrEvents command cfg.charDelay ++
  [Event.printStd ['\n']] ++
  (ExecuteCommand command env).1 ++
  execErrEvents command env ++
  PrintPrompt p ++
  postDelayEvents cfg ++
  clearStep cfg p env lastLine command

/-- The command list of rootCmd.RunE: normalize CRLF line endings to LF,
then split the input on newlines. -/
def commandsOf (input : Str) : List Str :=
  splitChar '\n' (replaceCRLF input)

/-- The playback part of rootCmd.RunE, after input acquisition: the
initial screen clear, the first prompt, then the loop over the command
list. -/
def runE (cfg : Config) (p : Prompt) (env : Env) (input : Str) : List Event :=
  clearScreenAttempt env ++
  PrintPrompt p ++
  (commandsOf input).flatMap
    (runIteration cfg p env ((commandsOf input).getLastD []))

/-- ProcessFile from cli.go, over the lines the scanner yields: append
each line followed by a newline, then trim all trailing newlines. -/
def ProcessFile (lines : List Str) : Str :=
  trimRightNewlines (lines.foldl (fun input line => input ++ line ++ ['\n']) [])

/-- ProcessInteractiveInput from cli.go, over the lines the scanner
yields: the same accumulation and trailing-newline trim as ProcessFile. -/
def ProcessInteractiveInput (lines : List Str) : Str :=
  trimRightNewlines (lines.foldl (fun input line => input ++ line ++ ['\n']) [])

/-- The state carried across loop iterations that the claims are about:
the prompt descriptor. The loop body of rootCmd.RunE contains no
assignment to the descriptor or its fields, which the state-threaded
iteration below reflects. -/
structure LoopState where
  p : Prompt

/-- One state-threaded iteration: the trace is rendered from the current
state's descriptor; the source assigns nothing to the descriptor, so the
state is returned unchanged. -/
def runIterationS (cfg : Config) (env : Env) (lastLine : Str)
    (st : LoopState) (command : Str) : LoopState × List Event :=
  (st, runIteration cfg st.p env lastLine command)

/-- The playback loop with the descriptor state threaded explicitly
through the iterations. -/
def runLoopS (cfg : Config) (env : Env) (lastLine : Str) :
    LoopState → List Str → LoopState × List Event
  | st, [] => (st, [])
  | st, command :: rest =>
    let step := runIterationS cfg env lastLine st command
    let next := runLoopS cfg env lastLine step.1 rest
    (next.1, step.2 ++ next.2)

/-- The command a process-launch event corresponds to: its fields joined
back with single spaces. -/
def execEventCommand : Event → Option Str
  | Event.exec prog args => some (intercalateChar ' ' (prog :: args))
  | _ => none

/-- The commands launched along a trace, in order. -/
def execCommandsOf (trace : List Event) : List Str :=
  trace.filterMap execEventCommand

/-- The concatenation of everything a trace writes to the output. -/
def writesConcat (trace : List Event) : Str :=
  trace.flatMap (fun e =>
    match e with
    | Event.writeOut s => s
    | _ => [])

def isSleepOf (d : Int) : Event → Bool
  | Event.sleep m => m = d
  | _ => false

/-- How many sleeps of the given duration a trace performs. -/
def sleepCount (d : Int) (trace : List Event) : Nat :=
  trace.countP (isSleepOf d)

def isClear : Event → Bool
  | Event.clearScreen => true
  | _ => false

/-- How many screen clears a trace performs. -/
def countClears (trace : List Event) : Nat :=
  trace.countP isClear

def isPrintStd : Event → Bool
  | Event.printStd _ => true
  | _ => false

/-- Whether every output write of a trace is a single character. -/
def writesAreSingleChar (trace : List Event) : Bool :=
  trace.all (fun e =>
    match e with
    | Event.writeOut w => w.length = 1
    | _ => true)

/-- Whether a string ends in a newline character. -/
def endsWithNewline (s : Str) : Bool :=
  match s.getLast? with
  | some c => c == '\n'
  | none => false

/-- Written from the spec's words: the three fixed prompt templates —
PS path greater-than space for the PowerShell style, path greater-than
space for the Cmd style, and the color-escaped
username at hostname colon path dollar space for the Bash style. -/
def promptTemplateSpec (p : Prompt) : Str :=
  match p.Shell with
  | ShellOption.PS => ("PS ").data ++ p.Path ++ ("> ").data
  | ShellOption.Cmd => p.Path ++ ("> ").data
  | ShellOption.Bash =>
    colorGreen ++ p.Username ++ ("@").data ++ p.Hostname
      ++ colorWhite ++ (":").data ++ colorBlue ++ p.Path ++ colorWhite
      ++ ("$ ").data

/-- Written from the spec's words: emit the string character by
character, each character followed by the fixed delay, a highlight
color before the first token, and a color reset at each space and at
the end of the string. -/
def typeSpecTrace (str : Str) (delayMs : Int) : List Event :=
  [Event.printStd colorHighlight] ++
  str.flatMap (fun c =>
    (if c = ' ' then [Event.printStd colorReset] else []) ++
    [Event.writeOut [c], Event.sleep delayMs]) ++
  [Event.printStd colorReset]

/-- Written from the spec's words: join the source's lines with
newlines, then strip all trailing newline characters. -/
def joinedLinesSpec (lines : List Str) : Str :=
  trimRightNewlines (intercalateChar '\n' lines)

/-- Concrete data used to instantiate the theorems below. -/
def cmdLs : Str := ("ls").data

def cmdLsDashL : Str := ("ls -l").data

def errBoom : Str := ("boom").data

def promptZero : Prompt := ⟨[], [], [], ShellOption.PS⟩

def cfgZero : Config := ⟨0, 0, 0, false⟩

def envZero : Env := ⟨fun _ _ => none, none⟩

def envErr : Env := ⟨fun _ _ => some errBoom, some errBoom⟩

def inputABA : Str := ("a\nb\na").data

/-- Splitting never yields an empty field list. -/
theorem splitChar_ne_nil (sep : Char) (l : Str) : splitChar sep l ≠ [] := by
  cases l with
  | nil => simp [splitChar]
  | cons c cs =>
    simp only [splitChar]
    cases splitChar sep cs with
    | nil => simp
    | cons h t => by_cases hc : c = sep <;> simp [hc]

/-- Joining the fields of a split with the separator restores the
original string: the split is on every single separator occurrence,
with no quoting or escaping. -/
theorem intercalateChar_splitChar (sep : Char) (l : Str) :
    intercalateChar sep (splitChar sep l) = l := by
  induction l with
  | nil => rfl
  | cons c cs ih =>
    cases h : splitChar sep cs with
    | nil => exact absurd h (splitChar_ne_nil sep cs)
    | cons hd tl =>
      rw [h] at ih
      simp only [splitChar, h]
      by_cases hc : c = sep
      · subst hc
        simp only [if_pos rfl, intercalateChar, List.nil_append]
        rw [ih]
      · rw [if_neg hc]
        cases tl with
        | nil =>
          simp only [intercalateChar] at ih ⊢
          rw [ih]
        | cons t ts =>
          simp only [intercalateChar] at ih ⊢
          rw [List.cons_append, ih]

/-- The head and tail of a split reassemble to the split. -/
theorem splitChar_headD_tail (sep : Char) (l : Str) :
    (splitChar sep l).headD [] :: (splitChar sep l).tail = splitChar sep l := by
  cases h : splitChar sep l with
  | nil => exact absurd h (splitChar_ne_nil sep l)
  | cons a t => rfl

/-- TypeAsHuman returns nil in both of its branches. -/
theorem TypeAsHuman_snd (str : Str) (d : Int) : (TypeAsHuman str d).2 = none := by
  unfold TypeAsHuman
  split <;> rfl

/-- The typing error guard in the loop never fires. -/
theorem typeErrEvents_eq_nil (str : Str) (d : Int) : typeErrEvents str d = [] := by
  simp [typeErrEvents, TypeAsHuman_snd]

theorem execCommandsOf_append (a b : List Event) :
    execCommandsOf (a ++ b) = execCommandsOf a ++ execCommandsOf b :=
  List.filterMap_append a b execEventCommand

theorem execCommandsOf_typeChar (d : Int) (c : Char) :
    execCommandsOf (typeCharEvents d c) = [] := by
  by_cases hc : c = ' ' <;>
    simp [execCommandsOf, typeCharEvents, hc, execEventCommand]

theorem execCommandsOf_flatMapTypeChar (d : Int) (str : Str) :
    execCommandsOf (str.flatMap (typeCharEvents d)) = [] := by
  induction str with
  | nil => rfl
  | cons c cs ih =>
    rw [List.flatMap_cons, execCommandsOf_append, execCommandsOf_typeChar, ih]
    rfl

theorem execCommandsOf_type (str : Str) (d : Int) :
    execCommandsOf (TypeAsHuman str d).1 = [] := by
  unfold TypeAsHuman
  split
  · simp [execCommandsOf, execEventCommand]
  · dsimp only
    rw [execCommandsOf_append, execCommandsOf_append, execCommandsOf_flatMapTypeChar]
    rfl

theorem execCommandsOf_prompt (p : Prompt) :
    execCommandsOf (PrintPrompt p) = [] := by
  cases hp : p.Shell <;> simp [PrintPrompt, hp, execCommandsOf, execEventCommand]

theorem execCommandsOf_clearAttempt (env : Env) :
    execCommandsOf (clearScreenAttempt env) = [] := by
  cases h : env.clsErr <;>
    simp [clearScreenAttempt, ClearScreen, h, execCommandsOf, execEventCommand]

theorem execCommandsOf_execErr (command : Str) (env : Env) :
    execCommandsOf (execErrEvents command env) = [] := by
  unfold execErrEvents
  cases (ExecuteCommand command env).2 <;>
    simp [execCommandsOf, execEventCommand]

theorem execCommandsOf_preDelay (cfg : Config) :
    execCommandsOf (preDelayEvents cfg) = [] := by
  unfold preDelayEvents
  split <;> simp [execCommandsOf, execEventCommand]

theorem execCommandsOf_postDelay (cfg : Config) :
    execCommandsOf (postDelayEvents cfg) = [] := by
  unfold postDelayEvents
  split <;> simp [execCommandsOf, execEventCommand]

theorem execCommandsOf_clearStep (cfg : Config) (p : Prompt) (env : Env)
    (lastLine command : Str) :
    execCommandsOf (clearStep cfg p env lastLine command) = [] := by
  unfold clearStep
  split
  · simp [execCommandsOf_append, execCommandsOf_clearAttempt, execCommandsOf_prompt]
  · rfl

/-- Each loop iteration launches exactly one process, and the launched
fields joined back with spaces are the command of that iteration. -/
theorem execCommandsOf_iter (cfg : Config) (p : Prompt) (env : Env)
    (lastLine command : Str) :
    execCommandsOf (runIteration cfg p env lastLine command) = [command] := by
  unfold runIteration
  simp only [execCommandsOf_append, execCommandsOf_preDelay,
    execCommandsOf_type, typeErrEvents_eq_nil, execCommandsOf_execErr,
    execCommandsOf_prompt, execCommandsOf_postDelay, execCommandsOf_clearStep]
  simp only [ExecuteCommand, execCommandsOf, List.filterMap, execEventCommand]
  simp only [List.nil_append, List.append_nil]
  rw [splitChar_headD_tail, intercalateChar_splitChar]

theorem clear_not_mem_typeChar (d : Int) (c : Char) :
    Event.clearScreen ∉ typeCharEvents d c := by
  by_cases hc : c = ' ' <;> simp [typeCharEvents, hc]

theorem clear_not_mem_type (str : Str) (d : Int) :
    Event.clearScreen ∉ (TypeAsHuman str d).1 := by
  unfold TypeAsHuman
  split
  · simp
  · dsimp only
    intro h
    rcases List.mem_append.mp h with h1 | h2
    · rcases List.mem_append.mp h1 with h3 | h4
      · simp at h3
      · rcases List.mem_flatMap.mp h4 with ⟨c, _, hm⟩
        exact clear_not_mem_typeChar d c hm
    · simp at h2

theorem clear_not_mem_prompt (p : Prompt) :
    Event.clearScreen ∉ PrintPrompt p := by
  cases hp : p.Shell <;> simp [PrintPrompt, hp]

theorem clear_not_mem_execErr (command : Str) (env : Env) :
    Event.clearScreen ∉ execErrEvents command env := by
  unfold execErrEvents
  cases (ExecuteCommand command env).2 <;> simp

theorem clear_not_mem_preDelay (cfg : Config) :
    Event.clearScreen ∉ preDelayEvents cfg := by
  unfold preDelayEvents
  split <;> simp

theorem clear_not_mem_postDelay (cfg : Config) :
    Event.clearScreen ∉ postDelayEvents cfg := by
  unfold postDelayEvents
  split <;> simp

theorem clear_mem_clearAttempt (env : Env) :
    Event.clearScreen ∈ clearScreenAttempt env := by
  unfold clearScreenAttempt ClearScreen
  simp

theorem clear_mem_clearStep_iff (cfg : Config) (p : Prompt) (env : Env)
    (lastLine command : Str) :
    Event.clearScreen ∈ clearStep cfg p env lastLine command ↔
      (cfg.noCls = false ∧ command ≠ lastLine) := by
  unfold clearStep
  split_ifs with h
  · exact iff_of_true (List.mem_append.mpr (Or.inl (clear_mem_clearAttempt env))) h
  · exact iff_of_false (by simp) h

/-- A loop iteration clears the screen exactly when clearing is enabled
and the command differs, as a string, from the last command of the
list. -/
theorem clear_mem_iter_iff (cfg : Config) (p : Prompt) (env : Env)
    (lastLine command : Str) :
    Event.clearScreen ∈ runIteration cfg p env lastLine command ↔
      (cfg.noCls = false ∧ command ≠ lastLine) := by
  unfold runIteration
  constructor
  · intro h
    simp only [List.append_assoc] at h
    rcases List.mem_append.mp h with h|h
    · exact absurd h (clear_not_mem_preDelay cfg)
    rcases List.mem_append.mp h with h|h
    · exact absurd h (clear_not_mem_type command cfg.charDelay)
    rcases List.mem_append.mp h with h|h
    · rw [typeErrEvents_eq_nil] at h
      exact absurd h (List.not_mem_nil _)
    rcases List.mem_append.mp h with h|h
    · simp at h
    rcases List.mem_append.mp h with h|h
    · simp [ExecuteCommand] at h
    rcases List.mem_append.mp h with h|h
    · exact absurd h (clear_not_mem_execErr command env)
    rcases List.mem_append.mp h with h|h
    · exact absurd h (clear_not_mem_prompt p)
    rcases List.mem_append.mp h with h|h
    · exact absurd h (clear_not_mem_postDelay cfg)
    exact (clear_mem_clearStep_iff cfg p env lastLine command).mp h
  · intro h
    have hm := (clear_mem_clearStep_iff cfg p env lastLine command).mpr h
    simp only [List.mem_append]
    tauto

theorem writesConcat_append (a b : List Event) :
    writesConcat (a ++ b) = writesConcat a ++ writesConcat b := by
  unfold writesConcat
  exact List.flatMap_append a b _

theorem writesConcat_typeChar (d : Int) (c : Char) :
    writesConcat (typeCharEvents d c) = [c] := by
  by_cases hc : c = ' ' <;> simp [writesConcat, typeCharEvents, hc]

/-- The characters written by the typing loop, concatenated, are the
typed string. -/
theorem writesConcat_flatMapTypeChar (d : Int) (str : Str) :
    writesConcat (str.flatMap (typeCharEvents d)) = str := by
  induction str with
  | nil => rfl
  | cons c cs ih =>
    rw [List.flatMap_cons, writesConcat_append, writesConcat_typeChar, ih]
    rfl

theorem sleepCount_append (d : Int) (a b : List Event) :
    sleepCount d (a ++ b) = sleepCount d a + sleepCount d b :=
  List.countP_append _ a b

theorem sleepCount_typeChar (d : Int) (c : Char) :
    sleepCount d (typeCharEvents d c) = 1 := by
  by_cases hc : c = ' ' <;> simp [sleepCount, typeCharEvents, hc, isSleepOf]

/-- The typing loop sleeps the per-character delay once per character. -/
theorem sleepCount_flatMapTypeChar (d : Int) (str : Str) :
    sleepCount d (str.flatMap (typeCharEvents d)) = str.length := by
  induction str with
  | nil => rfl
  | cons c cs ih =>
    rw [List.flatMap_cons, sleepCount_append, sleepCount_typeChar, ih,
      List.length_cons]
    omega

theorem writesAreSingleChar_append (a b : List Event) :
    writesAreSingleChar (a ++ b) = (writesAreSingleChar a && writesAreSingleChar b) :=
  List.all_append

theorem writesAreSingleChar_typeChar (d : Int) (c : Char) :
    writesAreSingleChar (typeCharEvents d c) = true := by
  by_cases hc : c = ' ' <;> simp [writesAreSingleChar, typeCharEvents, hc]

theorem writesAreSingleChar_flatMapTypeChar (d : Int) (str : Str) :
    writesAreSingleChar (str.flatMap (typeCharEvents d)) = true := by
  induction str with
  | nil => rfl
  | cons c cs ih =>
    rw [List.flatMap_cons, writesAreSingleChar_append,
      writesAreSingleChar_typeChar, ih]
    rfl

theorem trimRightNewlines_append_newline (s : Str) :
    trimRightNewlines (s ++ ['\n']) = trimRightNewlines s := by
  unfold trimRightNewlines
  rw [List.reverse_append]
  simp [List.dropWhile_cons]

theorem head?_dropWhile_false {α : Type} (p : α → Bool) (l : List α) (a : α)
    (h : (l.dropWhile p).head? = some a) : p a = false := by
  induction l with
  | nil => simp [List.dropWhile] at h
  | cons x xs ih =>
    rw [List.dropWhile_cons] at h
    by_cases hx : p x = true
    · rw [if_pos hx] at h
      exact ih h
    · rw [if_neg hx] at h
      simp only [List.head?_cons, Option.some.injEq] at h
      rw [← h]
      exact Bool.eq_false_iff.mpr hx

/-- After trimming trailing newlines, the string cannot end in one. -/
theorem endsWithNewline_trim (s : Str) : endsWithNewline (trimRightNewlines s) = false := by
  unfold endsWithNewline
  rw [trimRightNewlines, List.getLast?_reverse]
  cases h : (List.dropWhile (fun c => c == '\n') s.reverse).head? with
  | none => rfl
  | some c =>
    show (c == '\n') = false
    exact head?_dropWhile_false (fun c => c == '\n') s.reverse c h

/-- The loop that appends each line and a newline, as a flat map. -/
theorem foldl_append_newline (lines : List Str) (acc : Str) :
    lines.foldl (fun input line => input ++ line ++ ['\n']) acc
      = acc ++ lines.flatMap (fun line => line ++ ['\n']) := by
  induction lines generalizing acc with
  | nil => simp
  | cons l ls ih =>
    rw [List.foldl_cons, List.flatMap_cons, ih]
    simp [List.append_assoc]

/-- Appending each line and a newline is joining with newlines plus a
final newline, when there is at least one line. -/
theorem flatMap_newline_eq (lines : List Str) :
    lines.flatMap (fun line => line ++ ['\n'])
      = intercalateChar '\n' lines ++ (if lines = [] then [] else ['\n']) := by
  induction lines with
  | nil => rfl
  | cons l ls ih =>
    cases ls with
    | nil => simp [intercalateChar]
    | cons l2 ls2 =>
      simp only [List.flatMap_cons] at ih ⊢
      rw [ih]
      simp [intercalateChar, List.append_assoc]

/-- The commands launched by the whole playback run are exactly the
command list, in order, whatever the oracle answers. -/
theorem execCommandsOf_runE (cfg : Config) (p : Prompt) (env : Env)
    (input : Str) :
    execCommandsOf (runE cfg p env input) = commandsOf input := by
  unfold runE
  simp only [execCommandsOf_append, execCommandsOf_clearAttempt,
    execCommandsOf_prompt, List.nil_append]
  generalize (commandsOf input).getLastD [] = lastLine
  induction commandsOf input with
  | nil => rfl
  | cons c cs ih =>
    simp only [List.flatMap_cons, execCommandsOf_append, execCommandsOf_iter, ih]
    rfl

/-- C1 (amended): the playback run is the initial clear and prompt
followed, for each command of the list in order, by one iteration of
the shape: pre-delay sleep when the pre-delay is positive, typing the
command (with its never-firing error guard) and a newline, executing
the command and printing its error if any, printing the prompt,
post-delay sleep when the post-delay is positive, and the
clear-and-reprint step; the clear-and-reprint runs exactly when screen
clearing is enabled and the command differs, as a string, from the
last command of the list — so it is skipped after the last command,
and also after any earlier command whose text equals the last one. -/
theorem C1_loop_structure (cfg : Config) (p : Prompt) (env : Env) (input : Str) :
    runE cfg p env input =
      clearScreenAttempt env ++ PrintPrompt p ++
        (commandsOf input).flatMap
          (fun command =>
            preDelayEvents cfg ++
            (TypeAsHuman command cfg.charDelay).1 ++
            typeErrEvents command cfg.charDelay ++
            [Event.printStd ['\n']] ++
            (ExecuteCommand command env).1 ++
            execErrEvents command env ++
            PrintPrompt p ++
            postDelayEvents cfg ++
            clearStep cfg p env ((commandsOf input).getLastD []) command) ∧
    (∀ lastLine command,
      Event.clearScreen ∈ runIteration cfg p env lastLine command ↔
        (cfg.noCls = false ∧ command ≠ lastLine)) :=
  ⟨rfl, fun lastLine command => clear_mem_iter_iff cfg p env lastLine command⟩

/-- C1 witness: at a concrete configuration with clearing enabled and a
command that differs from the last line, the iteration does clear the
screen. -/
theorem C1_witness :
    Event.clearScreen ∈ runIteration cfgZero promptZero envZero [] cmdLs :=
  ((C1_loop_structure cfgZero promptZero envZero []).2 [] cmdLs).mpr
    (And.intro rfl (by decide))

/-- C1 counterexample: with clearing enabled and the command list a, b,
a, the claim predicts a clear after each of the first two commands (two
clears); the code clears only once, because the first command, though
not last in the list, is equal as a string to the last command. -/
theorem C1_counterexample :
    cfgZero.noCls = false ∧
    commandsOf inputABA = [("a").data, ("b").data, ("a").data] ∧
    (commandsOf inputABA).getLastD [] = ("a").data ∧
    countClears ((commandsOf inputABA).flatMap
      (runIteration cfgZero promptZero envZero (("a").data))) = 1 := by
  refine ⟨rfl, by decide, by decide, by decide⟩

/-- C2 (amended): for every input string and every nonzero delay value,
TypeAsHuman emits the highlight color, then each character one at a
time, each single-character write followed by a sleep of the fixed
delay, resetting the color at each space character and at the end of
the string; the characters written, concatenated, are exactly the
input string. -/
theorem C2_typing (str : Str) (delayMs : Int) (h : delayMs ≠ 0) :
    (TypeAsHuman str delayMs).1 = typeSpecTrace str delayMs ∧
    writesConcat (TypeAsHuman str delayMs).1 = str ∧
    writesAreSingleChar (TypeAsHuman str delayMs).1 = true ∧
    sleepCount delayMs (TypeAsHuman str delayMs).1 = str.length := by
  have htr : (TypeAsHuman str delayMs).1
      = [Event.printStd colorHighlight] ++ str.flatMap (typeCharEvents delayMs)
        ++ [Event.printStd colorReset] := by
    unfold TypeAsHuman
    rw [if_neg h]
  refine ⟨?_, ?_, ?_, ?_⟩
  · rw [htr]
    rfl
  · rw [htr, writesConcat_append, writesConcat_append, writesConcat_flatMapTypeChar]
    simp [writesConcat]
  · rw [htr, writesAreSingleChar_append, writesAreSingleChar_append,
      writesAreSingleChar_flatMapTypeChar]
    rfl
  · rw [htr, sleepCount_append, sleepCount_append, sleepCount_flatMapTypeChar]
    simp [sleepCount, isSleepOf]

/-- C2 witness: the amended claim instantiated at a two-token command
and delay 5. -/
theorem C2_witness :
    (TypeAsHuman cmdLsDashL 5).1 = typeSpecTrace cmdLsDashL 5 ∧
    writesConcat (TypeAsHuman cmdLsDashL 5).1 = cmdLsDashL ∧
    writesAreSingleChar (TypeAsHuman cmdLsDashL 5).1 = true ∧
    sleepCount 5 (TypeAsHuman cmdLsDashL 5).1 = cmdLsDashL.length :=
  C2_typing cmdLsDashL 5 (by decide)

/-- C2 counterexample: at delay value 0 the claim fails — the whole
five-character string is written in one single write, with no
per-character sleeps and no color prints at all. -/
theorem C2_counterexample :
    (TypeAsHuman cmdLsDashL 0).1 = [Event.writeOut cmdLsDashL] ∧
    writesAreSingleChar (TypeAsHuman cmdLsDashL 0).1 = false ∧
    sleepCount 0 (TypeAsHuman cmdLsDashL 0).1 = 0 ∧
    (TypeAsHuman cmdLsDashL 0).1.countP isPrintStd = 0 := by
  refine ⟨rfl, by decide, rfl, rfl⟩

/-- C3: PrintPrompt renders exactly the fixed template selected by the
shell style (PS path for PowerShell, path for Cmd, the color-escaped
user at host colon path for Bash), and equal descriptors produce equal
output. -/
theorem C3_prompt (p : Prompt) :
    PrintPrompt p = [Event.writeOut (promptTemplateSpec p)] ∧
    (∀ q : Prompt, p = q → PrintPrompt p = PrintPrompt q) := by
  constructor
  · cases hp : p.Shell <;> simp [PrintPrompt, promptTemplateSpec, hp]
  · intro q hq
    rw [hq]

/-- C3 witness: the rendering equation and determinism instantiated at
a concrete descriptor. -/
theorem C3_witness :
    PrintPrompt promptZero = [Event.writeOut (promptTemplateSpec promptZero)] ∧
    PrintPrompt promptZero = PrintPrompt promptZero :=
  ⟨(C3_prompt promptZero).1, (C3_prompt promptZero).2 promptZero rfl⟩

/-- C4: ExecuteCommand splits its command on single space characters
into a program (the first field) and arguments (the remaining fields in
order) — with no quoting or escaping, as joining the fields back with
single spaces restores the command — and returns the run result as an
error instead of aborting. -/
theorem C4_execute (command : Str) (env : Env) :
    ∃ prog args,
      splitChar ' ' command = prog :: args ∧
      (ExecuteCommand command env).1 = [Event.exec prog args] ∧
      intercalateChar ' ' (prog :: args) = command ∧
      (ExecuteCommand command env).2 = env.runner prog args := by
  cases h : splitChar ' ' command with
  | nil => exact absurd h (splitChar_ne_nil ' ' command)
  | cons prog args =>
    refine ⟨prog, args, rfl, ?_, ?_, ?_⟩
    · simp [ExecuteCommand, h]
    · rw [← h]
      exact intercalateChar_splitChar ' ' command
    · simp [ExecuteCommand, h]

/-- C5: the commands the playback loop executes are exactly, in order
and count, the fields of the acquired input split on newlines after
normalizing CRLF line endings to LF. -/
theorem C5_command_list (cfg : Config) (p : Prompt) (env : Env) (input : Str) :
    execCommandsOf (runE cfg p env input) = commandsOf input ∧
    commandsOf input = splitChar '\n' (replaceCRLF input) :=
  ⟨execCommandsOf_runE cfg p env input, rfl⟩

/-- C6: execution and screen-clear errors are printed inside the
iteration, and which commands get executed is independent of every
oracle answer, so an error in one iteration never aborts the loop or
changes the subsequent commands. -/
theorem C6_errors (cfg : Config) (p : Prompt) (env env2 : Env) (input : Str)
    (lastLine command err : Str) :
    execCommandsOf (runE cfg p env input) = execCommandsOf (runE cfg p env2 input) ∧
    ((ExecuteCommand command env).2 = some err →
      Event.printStd (errorMsg err) ∈ runIteration cfg p env lastLine command) ∧
    (env.clsErr = some err → cfg.noCls = false → command ≠ lastLine →
      Event.printStd (err ++ ['\n']) ∈ runIteration cfg p env lastLine command) := by
  refine ⟨?_, ?_, ?_⟩
  · rw [execCommandsOf_runE, execCommandsOf_runE]
  · intro h
    unfold runIteration
    have hm : Event.printStd (errorMsg err) ∈ execErrEvents command env := by
      unfold execErrEvents
      rw [h]
      simp
    simp only [List.append_assoc, List.mem_append]
    tauto
  · intro hcls hnc hne
    unfold runIteration
    have hm : Event.printStd (err ++ ['\n']) ∈ clearStep cfg p env lastLine command := by
      unfold clearStep
      rw [if_pos (And.intro hnc hne)]
      unfold clearScreenAttempt ClearScreen
      rw [hcls]
      simp
    simp only [List.append_assoc, List.mem_append]
    tauto

/-- C6 witness: with an oracle that fails both execution and screen
clearing, the iteration prints both error messages. -/
theorem C6_witness :
    Event.printStd (errorMsg errBoom) ∈ runIteration cfgZero promptZero envErr [] cmdLs ∧
    Event.printStd (errBoom ++ ['\n']) ∈ runIteration cfgZero promptZero envErr [] cmdLs := by
  have h := C6_errors cfgZero promptZero envErr envErr [] [] cmdLs errBoom
  exact ⟨h.2.1 rfl, h.2.2 rfl rfl (by decide)⟩

/-- C7: the loop carries the prompt descriptor unchanged — after any
number of iterations the threaded state still holds the initial
descriptor, and the whole trace equals the loop rendered from that one
descriptor, so every prompt printed in a run comes from the same
username, hostname, path and shell style. -/
theorem C7_prompt_immutable (cfg : Config) (env : Env) (lastLine : Str)
    (st : LoopState) (commands : List Str) :
    (runLoopS cfg env lastLine st commands).1 = st ∧
    (runLoopS cfg env lastLine st commands).2
      = commands.flatMap (runIteration cfg st.p env lastLine) := by
  induction commands generalizing st with
  | nil => exact ⟨rfl, rfl⟩
  | cons c cs ih =>
    constructor
    · simp only [runLoopS, runIterationS]
      exact (ih st).1
    · simp only [runLoopS, runIterationS, List.flatMap_cons]
      rw [(ih st).2]

/-- C8: with a per-character delay of 0, TypeAsHuman writes the whole
string verbatim in one single write, emits no color prints and no
sleeps, and succeeds. -/
theorem C8_zero_delay (str : Str) :
    TypeAsHuman str 0 = ([Event.writeOut str], none) ∧
    (TypeAsHuman str 0).1.countP isPrintStd = 0 ∧
    sleepCount 0 (TypeAsHuman str 0).1 = 0 := by
  have h : TypeAsHuman str 0 = ([Event.writeOut str], none) := by
    unfold TypeAsHuman
    rw [if_pos rfl]
  refine ⟨h, ?_, ?_⟩ <;>
    (rw [h]; rfl)

/-- C9: TypeAsHuman returns nil for every input string and delay value,
so the error guard around its call in the playback loop never fires. -/
theorem C9_type_never_errors :
    (∀ str d, (TypeAsHuman str d).2 = none) ∧
    (∀ str d, typeErrEvents str d = []) :=
  ⟨TypeAsHuman_snd, typeErrEvents_eq_nil⟩

/-- C10: ProcessFile and ProcessInteractiveInput both produce the
source's lines joined with newlines with all trailing newlines
stripped; the result never ends in a newline, and trailing empty lines
arising from terminating newlines change nothing. -/
theorem C10_processed_input (lines : List Str) :
    ProcessFile lines = joinedLinesSpec lines ∧
    ProcessInteractiveInput lines = joinedLinesSpec lines ∧
    endsWithNewline (ProcessFile lines) = false ∧
    ProcessFile (lines ++ [[]]) = ProcessFile lines := by
  have key : ∀ ls : List Str, ProcessFile ls = joinedLinesSpec ls := by
    intro ls
    unfold ProcessFile joinedLinesSpec
    rw [foldl_append_newline, List.nil_append, flatMap_newline_eq]
    by_cases h : ls = []
    · rw [if_pos h, List.append_nil]
    · rw [if_neg h, trimRightNewlines_append_newline]
  refine ⟨key lines, key lines, ?_, ?_⟩
  · rw [key lines]
    unfold joinedLinesSpec
    exact endsWithNewline_trim _
  · unfold ProcessFile
    rw [foldl_append_newline, foldl_append_newline, List.nil_append,
      List.nil_append, List.flatMap_append]
    simp only [List.flatMap_cons, List.flatMap_nil, List.nil_append,
      List.append_nil]
    exact trimRightNewlines_append_newline _
